import Mathlib

set_option maxHeartbeats 1000000

/-!
Verification development for the pushblock-poker core: a shallow embedding
of the coordinate module (`src/coordinate.rs`), the Sokoban board engine
(`src/sokoban.rs`) and the poker hand evaluator (`src/poker.rs`), together
with theorems settling the specification's claims about them.

Machine integers (`u32`) are modelled as `Nat` with explicit checked
arithmetic against `2 ^ 32 - 1`; Rust `Option` maps to Lean `Option`;
Rust panics (failed `unwrap`, `assert!`, array `try_into`) are modelled
as `none` results of `Option`-valued functions.
-/

/-- The four movement directions (`src/coordinate.rs`, `Direction`). -/
inductive Direction
  | Up
  | Left
  | Down
  | Right
deriving DecidableEq, Repr

/-- Modelled from the spec: the `opposite(d)` helper that §8 of the spec
uses to state the nudge round-trip property; the source defines no such
function, so it is taken from the spec's words (Up and Down are opposite,
Left and Right are opposite). -/
def Direction.opposite : Direction → Direction
  | .Up => .Down
  | .Left => .Right
  | .Down => .Up
  | .Right => .Left

/-- The largest value representable in a `u32`. -/
def U32_MAX : Nat := 2 ^ 32 - 1

/-- Rust `u32::checked_sub`: `none` on underflow. -/
def checked_sub (a n : Nat) : Option Nat :=
  if n ≤ a then some (a - n) else none

/-- Rust `u32::checked_add`: `none` when the sum would exceed `u32::MAX`. -/
def checked_add (a n : Nat) : Option Nat :=
  if a + n ≤ U32_MAX then some (a + n) else none

/-- A 2D unsigned integer coordinate (`src/coordinate.rs`, `U2`). -/
structure U2 where
  x : Nat
  y : Nat
deriving DecidableEq, Repr

instance : Inhabited U2 := ⟨⟨0, 0⟩⟩

/-- Rust `U2::nudge_by` (`src/coordinate.rs`): the coordinate `n` units away in
`direction`, or `none` on integer over/underflow. -/
def U2.nudge_by (p : U2) (n : Nat) (d : Direction) : Option U2 :=
  match d with
  | .Up => (checked_sub p.y n).map fun y => U2.mk p.x y
  | .Left => (checked_sub p.x n).map fun x => U2.mk x p.y
  | .Down => (checked_add p.y n).map fun y => U2.mk p.x y
  | .Right => (checked_add p.x n).map fun x => U2.mk x p.y

/-- Rust `U2::nudge` (`src/coordinate.rs`): one unit away in `direction`. -/
def U2.nudge (p : U2) (d : Direction) : Option U2 := p.nudge_by 1 d

/-- Steps available from `p` toward the coordinate boundary in direction
`d`: for `n ≥ 1`, `p.nudge_by n d` is `some` exactly when `n` is at most
this bound.  Used only as the termination measure of the walk loop. -/
def U2.maxSteps (p : U2) : Direction → Nat
  | .Up => p.y
  | .Left => p.x
  | .Down => U32_MAX - p.y
  | .Right => U32_MAX - p.x

theorem U2.le_maxSteps_of_nudge_by {p : U2} {n : Nat} {d : Direction} {c : U2}
    (h : p.nudge_by n d = some c) : n ≤ p.maxSteps d := by
  cases d <;>
    simp only [U2.nudge_by, checked_sub, checked_add, U2.maxSteps, Option.map] at h ⊢ <;>
    split at h <;> simp_all <;> omega

/-- The puzzle board (`src/sokoban.rs`, `Sokoban`).  `U2Array` is a plain
vector of coordinates, embedded as `List U2`. -/
structure Sokoban where
  you : U2
  stops : List U2
  pushes : List U2
  targets : List U2
deriving DecidableEq, Repr

/-- The outward-walk loop of `Sokoban::you_move` (`src/sokoban.rs` lines
173–191).  `none` models the early `return` that rejects the move (the
candidate overflowed or hit a stop); `some acc` models `break`, with `acc`
the collected `moving_pushes`.  The Rust loop `for i in 1..` is unbounded;
it terminates because the candidate coordinate overflows once `i` passes
`maxSteps`, which is the measure used here. -/
def youMoveWalk (s : Sokoban) (d : Direction) (i : Nat) (acc : List U2) : Option (List U2) :=
  match h : s.you.nudge_by i d with
  | none => none
  | some c =>
    if c ∈ s.stops then none
    else if c ∈ s.pushes then youMoveWalk s d (i + 1) (acc ++ [c])
    else some acc
termination_by s.you.maxSteps d + 1 - i
decreasing_by
  have := U2.le_maxSteps_of_nudge_by h
  omega

/-- Rust `Sokoban::you_move` (`src/sokoban.rs` lines 171–212).  The two
`unwrap()` calls after the loop are modelled with `Option.get!`; the
development proves they are always applied to `some` values. -/
def Sokoban.you_move (s : Sokoban) (d : Direction) : Sokoban :=
  match youMoveWalk s d 1 [] with
  | none => s
  | some moving =>
    { you := (s.you.nudge d).get!
      stops := s.stops
      pushes := s.pushes.map fun p => if p ∈ moving then (p.nudge d).get! else p
      targets := s.targets }

/-- Rust `Sokoban::triggered_targets` (`src/sokoban.rs` lines 274–279). -/
def Sokoban.triggered_targets (s : Sokoban) : List U2 :=
  s.targets.filter fun t => decide (t ∈ s.pushes)

/-- Rust `Sokoban::all_targets_triggered` (`src/sokoban.rs` lines 340–344). -/
def Sokoban.all_targets_triggered (s : Sokoban) : Bool :=
  s.targets.all fun t => decide (t ∈ s.pushes)

/-- Card face values, Ace high (`src/poker.rs`, `Rank`). -/
inductive Rank
  | Two
  | Three
  | Four
  | Five
  | Six
  | Seven
  | Eight
  | Nine
  | Ten
  | Jack
  | Queen
  | King
  | Ace
deriving DecidableEq, Repr, Fintype

/-- Declaration index of a `Rank`; the derived Rust `Ord` compares by it. -/
def Rank.toNat : Rank → Nat
  | .Two => 0
  | .Three => 1
  | .Four => 2
  | .Five => 3
  | .Six => 4
  | .Seven => 5
  | .Eight => 6
  | .Nine => 7
  | .Ten => 8
  | .Jack => 9
  | .Queen => 10
  | .King => 11
  | .Ace => 12

/-- The card suits (`src/poker.rs`, `Suit`). -/
inductive Suit
  | Diamond
  | Club
  | Heart
  | Spade
deriving DecidableEq, Repr

/-- A playing card (`src/poker.rs`, `Card`). -/
structure Card where
  rank : Rank
  suit : Suit
deriving DecidableEq, Repr

/-- Descending-rank order on cards, the comparator `Hand::new` sorts by. -/
def cardDesc (a b : Card) : Prop := b.rank.toNat ≤ a.rank.toNat

instance : DecidableRel cardDesc := fun a b => Nat.decLe _ _

instance : IsTotal Card cardDesc :=
  ⟨fun a b => (Nat.le_total b.rank.toNat a.rank.toNat).imp id id⟩

instance : IsTrans Card cardDesc :=
  ⟨fun _ _ _ h1 h2 => Nat.le_trans h2 h1⟩

/-- Descending order on ranks, used to sort the `Pair` kickers. -/
def rankDesc (a b : Rank) : Prop := b.toNat ≤ a.toNat

instance : DecidableRel rankDesc := fun a b => Nat.decLe _ _

instance : IsTotal Rank rankDesc :=
  ⟨fun a b => (Nat.le_total b.toNat a.toNat).imp id id⟩

instance : IsTrans Rank rankDesc :=
  ⟨fun _ _ _ h1 h2 => Nat.le_trans h2 h1⟩

/-- The hand categories with their tiebreak payloads (`src/poker.rs`,
`HandKind`).  The Rust `[Rank; 5]` and `[Rank; 3]` payloads are embedded
as lists; the code paths that build them guard their lengths exactly where
the Rust `try_into` conversions sit. -/
inductive HandKind
  | HighCard (ranks : List Rank)
  | Pair (pair : Rank) (high_cards : List Rank)
  | TwoPair (pair_high : Rank) (pair_low : Rank) (high_card : Rank)
  | ThreeOfAKind (r : Rank)
  | Straight (r : Rank)
  | Flush (ranks : List Rank)
  | FullHouse (r : Rank)
  | FourOfAKind (r : Rank)
  | StraightFlush (r : Rank)
  | RoyalFlush
deriving DecidableEq, Repr

/-- A hand of cards (`src/poker.rs`, `Hand`); always the sorted output of
`Hand.new` in well-formed use. -/
structure Hand where
  cards : List Card
deriving DecidableEq, Repr

/-- Rust `Hand::new` (`src/poker.rs` lines 130–137): `none` models the
`assert!(cards.len() >= 5)` panic; otherwise the cards are stably sorted
in descending rank order (Rust `sort_by` is a stable sort). -/
def Hand.new (cards : List Card) : Option Hand :=
  if 5 ≤ cards.length then some ⟨List.insertionSort cardDesc cards⟩ else none

/-- The predecessor cycle used by `Hand::straight_high_card`'s `match`
(`src/poker.rs` lines 194–208): Ace→King, …, Three→Two, Two→Ace. -/
def rankPred : Rank → Rank
  | .Ace => .King
  | .Two => .Ace
  | .Three => .Two
  | .Four => .Three
  | .Five => .Four
  | .Six => .Five
  | .Seven => .Six
  | .Eight => .Seven
  | .Nine => .Eight
  | .Ten => .Nine
  | .Jack => .Ten
  | .Queen => .Jack
  | .King => .Queen

/-- The walk over consecutive cards in `Hand::straight_high_card`: each
card's rank must be the `rankPred` of the previous one. -/
def isRunFrom : Rank → List Card → Bool
  | _, [] => true
  | prev, c :: rest => if c.rank = rankPred prev then isRunFrom c.rank rest else false

/-- The Ace-low (wheel) rotation at the top of `Hand::straight_high_card`
(`src/poker.rs` lines 184–189): if the first card is an Ace and the last a
Two, rotate left by one. -/
def straightSorted (cards : List Card) : List Card :=
  match cards with
  | [] => []
  | c :: cs =>
    if c.rank = Rank.Ace ∧ (cs.getLastD c).rank = Rank.Two then cs ++ [c]
    else c :: cs

/-- Rust `Hand::straight_high_card` (`src/poker.rs` lines 182–215).  The empty
case returns `none`; it is unreachable from `Hand.new` (≥ 5 cards), where
the Rust code would index out of bounds. -/
def straight_high_card (cards : List Card) : Option Rank :=
  match straightSorted cards with
  | [] => none
  | c :: rest => if isRunFrom c.rank rest then some c.rank else none

/-- Rust `Hand::is_flush` (`src/poker.rs` lines 217–220): all cards share the
first card's suit. -/
def is_flush (cards : List Card) : Bool :=
  match cards with
  | [] => true
  | c :: cs => (c :: cs).all fun x => decide (x.suit = c.suit)

/-- The multiplicity of rank `r` among `cards`: the count the `HashMap`
fold in `Hand::set_hand` (`src/poker.rs` lines 223–230) associates to `r`. -/
def countRank (cards : List Card) (r : Rank) : Nat :=
  (cards.map Card.rank).count r

/-- Rust `Hand::set_hand` (`src/poker.rs` lines 222–276).  The outer `Option`
models panics: `none` stands for a failed `assert_eq!` or `try_into`
unwrap; `some none` is Rust's `return None`.  The Rust code iterates a
`HashMap` in unspecified order; here the distinct ranks are visited in
`List.dedup` order.  For 5-card hands every outcome below is independent
of that order (at most one rank can have count 4 or 3, and max/min/sorting
make the pair and kicker handling order-free). -/
def set_hand (cards : List Card) : Option (Option HandKind) :=
  let ranks : List Rank := (cards.map Card.rank).dedup
  match ranks.find? (fun r => decide (countRank cards r = 4)) with
  | some r => some (some (HandKind.FourOfAKind r))
  | none =>
    let threes := ranks.filter fun r => decide (countRank cards r = 3)
    let pairs := ranks.filter fun r => decide (countRank cards r = 2)
    let high_cards := ranks.filter fun r =>
      decide (countRank cards r ≠ 3 ∧ countRank cards r ≠ 2)
    match threes.head? with
    | some t =>
      some (some (if 0 < pairs.length then HandKind.FullHouse t else HandKind.ThreeOfAKind t))
    | none =>
      match pairs, high_cards with
      | [p1, p2], [hc] =>
        some (some (HandKind.TwoPair
          (if p1.toNat ≤ p2.toNat then p2 else p1)
          (if p1.toNat ≤ p2.toNat then p1 else p2) hc))
      | [_, _], _ => none
      | [p], [a, b, c] =>
        some (some (HandKind.Pair p (List.insertionSort rankDesc [a, b, c])))
      | [_], _ => none
      | _, _ => some none

/-- Rust `Hand::kind` (`src/poker.rs` lines 145–180).  `none` models a panic:
either a failed `try_into::<[Rank; 5]>().unwrap()` (hand length ≠ 5 on the
`Flush`/`HighCard` paths) or a panic inside `set_hand`. -/
def Hand.kind (h : Hand) : Option HandKind :=
  let cards := h.cards
  if is_flush cards && (straight_high_card cards).isSome then
    if straight_high_card cards = some Rank.Ace then some HandKind.RoyalFlush
    else (straight_high_card cards).map HandKind.StraightFlush
  else if is_flush cards then
    if cards.length = 5 then some (HandKind.Flush (cards.map Card.rank)) else none
  else if (straight_high_card cards).isSome then
    (straight_high_card cards).map HandKind.Straight
  else
    match set_hand cards with
    | none => none
    | some (some k) => some k
    | some none =>
      if cards.length = 5 then some (HandKind.HighCard (cards.map Card.rank)) else none

/-- The derived Rust `Ord`/`PartialOrd` on `Rank` (declaration order). -/
def Rank.cmp (a b : Rank) : Ordering := compare a.toNat b.toNat

/-- Lexicographic comparison of rank sequences: the derived ordering on
the `[Rank; 5]` / `[Rank; 3]` payloads (always compared at equal length). -/
def cmpRankList : List Rank → List Rank → Ordering
  | [], [] => .eq
  | [], _ :: _ => .lt
  | _ :: _, [] => .gt
  | a :: xs, b :: ys => (Rank.cmp a b).then (cmpRankList xs ys)

/-- The declaration index of a `HandKind` variant: the discriminant the
derived Rust `PartialOrd` compares first. -/
def HandKind.tag : HandKind → Nat
  | .HighCard _ => 0
  | .Pair _ _ => 1
  | .TwoPair _ _ _ => 2
  | .ThreeOfAKind _ => 3
  | .Straight _ => 4
  | .Flush _ => 5
  | .FullHouse _ => 6
  | .FourOfAKind _ => 7
  | .StraightFlush _ => 8
  | .RoyalFlush => 9

/-- Field-by-field comparison of same-variant payloads, as the derived
Rust `PartialOrd` performs after the discriminants tie.  Cross-variant
pairs fall through to `.eq` (they are decided by the tag instead). -/
def HandKind.payloadCmp : HandKind → HandKind → Ordering
  | .HighCard x, .HighCard y => cmpRankList x y
  | .Pair p1 h1, .Pair p2 h2 => (Rank.cmp p1 p2).then (cmpRankList h1 h2)
  | .TwoPair a1 b1 c1, .TwoPair a2 b2 c2 =>
    ((Rank.cmp a1 a2).then (Rank.cmp b1 b2)).then (Rank.cmp c1 c2)
  | .ThreeOfAKind r1, .ThreeOfAKind r2 => Rank.cmp r1 r2
  | .Straight r1, .Straight r2 => Rank.cmp r1 r2
  | .Flush x, .Flush y => cmpRankList x y
  | .FullHouse r1, .FullHouse r2 => Rank.cmp r1 r2
  | .FourOfAKind r1, .FourOfAKind r2 => Rank.cmp r1 r2
  | .StraightFlush r1, .StraightFlush r2 => Rank.cmp r1 r2
  | _, _ => .eq

/-- The derived Rust `PartialOrd` on `HandKind` (`src/poker.rs` line 84):
discriminant first, then the payload fields; total on this type. -/
def HandKind.cmp (a b : HandKind) : Ordering :=
  (compare a.tag b.tag).then (a.payloadCmp b)

/-- Rust `impl PartialEq for Hand` (`src/poker.rs` lines 279–283): delegates to
`kind()` equality; `none` models a panic inside `kind()`. -/
def Hand.eqv (a b : Hand) : Option Bool :=
  match a.kind, b.kind with
  | some x, some y => some (decide (x = y))
  | _, _ => none

/-- Rust `impl PartialOrd for Hand` (`src/poker.rs` lines 285–289): delegates
to comparing `kind()`; `none` models a panic inside `kind()`. -/
def Hand.pcmp (a b : Hand) : Option Ordering :=
  match a.kind, b.kind with
  | some x, some y => some (HandKind.cmp x y)
  | _, _ => none

/-! ### Coordinate lemmas -/

theorem U2.nudge_step {p b c : U2} {n : Nat} {d : Direction}
    (h1 : p.nudge_by n d = some b) (h2 : p.nudge_by (n + 1) d = some c) :
    b.nudge d = some c := by
  cases p with
  | mk px py =>
    cases d
    case Up =>
      simp only [U2.nudge, U2.nudge_by, checked_sub, checked_add] at h1 h2 ⊢
      split at h1 <;> simp_all
      obtain ⟨hc, rfl⟩ := h2
      subst h1
      refine ⟨by show 1 ≤ py - n; omega, ?_⟩
      simp only [U2.mk.injEq]
      constructor <;> first | trivial | omega
    case Left =>
      simp only [U2.nudge, U2.nudge_by, checked_sub, checked_add] at h1 h2 ⊢
      split at h1 <;> simp_all
      obtain ⟨hc, rfl⟩ := h2
      subst h1
      refine ⟨by show 1 ≤ px - n; omega, ?_⟩
      simp only [U2.mk.injEq]
      constructor <;> first | trivial | omega
    case Down =>
      simp only [U2.nudge, U2.nudge_by, checked_sub, checked_add] at h1 h2 ⊢
      split at h1 <;> simp_all
      obtain ⟨hc, rfl⟩ := h2
      subst h1
      refine ⟨by show py + n + 1 ≤ U32_MAX; omega, ?_⟩
      simp only [U2.mk.injEq]
      constructor <;> first | trivial | omega
    case Right =>
      simp only [U2.nudge, U2.nudge_by, checked_sub, checked_add] at h1 h2 ⊢
      split at h1 <;> simp_all
      obtain ⟨hc, rfl⟩ := h2
      subst h1
      refine ⟨by show px + n + 1 ≤ U32_MAX; omega, ?_⟩
      simp only [U2.mk.injEq]
      constructor <;> first | trivial | omega

theorem U2.nudge_by_inj {p b : U2} {m n : Nat} {d : Direction}
    (h1 : p.nudge_by m d = some b) (h2 : p.nudge_by n d = some b) : m = n := by
  cases p with
  | mk px py =>
    cases d <;>
      simp only [U2.nudge_by, checked_sub, checked_add] at h1 h2 <;>
      split at h1 <;> simp_all <;>
      (obtain ⟨hc, hb⟩ := h2; subst h1; simp only [U2.mk.injEq] at hb; omega)

theorem youMoveWalk_eq (s : Sokoban) (d : Direction) (i : Nat) (acc : List U2) :
    youMoveWalk s d i acc =
      match s.you.nudge_by i d with
      | none => none
      | some c =>
        if c ∈ s.stops then none
        else if c ∈ s.pushes then youMoveWalk s d (i + 1) (acc ++ [c])
        else some acc := by
  rw [youMoveWalk]
  cases hn : s.you.nudge_by i d <;> rfl

/-! ### Walk lemmas -/

/-- Soundness of a successful walk: starting at index `i`, the returned
`moving_pushes` list is the accumulator followed by exactly the contiguous
chain of push cells at indices `i, i+1, …`, and the walk stopped at a free
landing cell just past the chain. -/
theorem youMoveWalk_sound (s : Sokoban) (d : Direction) :
    ∀ fuel i acc scan, s.you.maxSteps d + 1 - i ≤ fuel →
      youMoveWalk s d i acc = some scan →
      ∃ tail, scan = acc ++ tail ∧
        (∀ t (ht : t < tail.length),
          s.you.nudge_by (i + t) d = some (tail.get ⟨t, ht⟩) ∧
          tail.get ⟨t, ht⟩ ∈ s.pushes ∧ tail.get ⟨t, ht⟩ ∉ s.stops) ∧
        (∃ q, s.you.nudge_by (i + tail.length) d = some q ∧
          q ∉ s.stops ∧ q ∉ s.pushes) := by
  intro fuel
  induction fuel with
  | zero =>
    intro i acc scan hf hw
    rw [youMoveWalk_eq] at hw
    split at hw
    · exact absurd hw (by simp)
    · next c heq =>
      have := U2.le_maxSteps_of_nudge_by heq
      omega
  | succ fuel ih =>
    intro i acc scan hf hw
    rw [youMoveWalk_eq] at hw
    split at hw
    · exact absurd hw (by simp)
    · next c heq =>
      have hle := U2.le_maxSteps_of_nudge_by heq
      split at hw
      · exact absurd hw (by simp)
      · next hstop =>
        split at hw
        · next hpush =>
          obtain ⟨tail', rfl, hmid, hend⟩ := ih (i + 1) (acc ++ [c]) scan (by omega) hw
          refine ⟨c :: tail', by simp, ?_, ?_⟩
          · intro t ht
            cases t with
            | zero =>
              simpa using ⟨heq, hpush, hstop⟩
            | succ t =>
              have ht' : t < tail'.length := by simpa using ht
              have := hmid t ht'
              simpa [Nat.add_comm, Nat.add_assoc, Nat.add_left_comm] using this
          · obtain ⟨q, hq1, hq2, hq3⟩ := hend
            exact ⟨q, by simpa [Nat.add_comm, Nat.add_assoc, Nat.add_left_comm] using hq1, hq2, hq3⟩
        · next hpush =>
          have hscan : scan = acc := by simpa using hw.symm
          subst hscan
          refine ⟨[], by simp, by simp, ⟨c, by simpa using heq, hstop, hpush⟩⟩

/-- The walk from the start: characterisation of a successful run. -/
theorem youMoveWalk_run (s : Sokoban) (d : Direction) (scan : List U2)
    (hw : youMoveWalk s d 1 [] = some scan) :
    (∀ t (ht : t < scan.length),
      s.you.nudge_by (1 + t) d = some (scan.get ⟨t, ht⟩) ∧
      scan.get ⟨t, ht⟩ ∈ s.pushes ∧ scan.get ⟨t, ht⟩ ∉ s.stops) ∧
    (∃ q, s.you.nudge_by (1 + scan.length) d = some q ∧
      q ∉ s.stops ∧ q ∉ s.pushes) := by
  obtain ⟨tail, htail, hmid, hend⟩ :=
    youMoveWalk_sound s d (s.you.maxSteps d + 1) 1 [] scan (by omega) hw
  simp only [List.nil_append] at htail
  subst htail
  exact ⟨hmid, hend⟩

/-- After a successful walk the player's single-step nudge is defined. -/
theorem youMoveWalk_you_nudge_isSome (s : Sokoban) (d : Direction) (scan : List U2)
    (hw : youMoveWalk s d 1 [] = some scan) : (s.you.nudge d).isSome := by
  obtain ⟨hmid, q, hq, -, -⟩ := youMoveWalk_run s d scan hw
  cases hs : scan with
  | nil =>
    subst hs
    simpa [U2.nudge] using congrArg Option.isSome hq
  | cons c cs =>
    have h0 := hmid 0 (by simp [hs])
    simpa [U2.nudge] using congrArg Option.isSome h0.1

/-- After a successful walk every collected push's single-step nudge is
defined (the cell past it in the chain, or the landing cell, witnesses it). -/
theorem youMoveWalk_push_nudge_isSome (s : Sokoban) (d : Direction) (scan : List U2)
    (hw : youMoveWalk s d 1 [] = some scan) :
    ∀ b ∈ scan, (b.nudge d).isSome := by
  obtain ⟨hmid, q, hq, -, -⟩ := youMoveWalk_run s d scan hw
  intro b hb
  obtain ⟨⟨t, ht⟩, rfl⟩ := List.mem_iff_get.mp hb
  rcases Nat.lt_or_ge (t + 1) scan.length with ht' | ht'
  · have hnext := (hmid (t + 1) ht').1
    have hstep := U2.nudge_step (hmid t ht).1
      (by simpa [Nat.add_comm, Nat.add_assoc, Nat.add_left_comm] using hnext)
    rw [List.get_eq_getElem] at hstep
    simp [hstep]
  · have hteq : t + 1 = scan.length := by omega
    have hstep := U2.nudge_step (hmid t ht).1
      (by rw [show 1 + t + 1 = 1 + scan.length by omega]; exact hq)
    rw [List.get_eq_getElem] at hstep
    simp [hstep]

/-- The collected chain visits pairwise distinct cells, so a successful
walk collects at most `pushes.length` cells: the loop finds its free cell
within one step more than the number of blocks. -/
theorem youMoveWalk_length_le (s : Sokoban) (d : Direction) (scan : List U2)
    (hw : youMoveWalk s d 1 [] = some scan) : scan.length ≤ s.pushes.length := by
  obtain ⟨hmid, -⟩ := youMoveWalk_run s d scan hw
  have hnd : scan.Nodup := by
    rw [List.nodup_iff_injective_get]
    intro ⟨t1, h1⟩ ⟨t2, h2⟩ hgg
    have e1 := (hmid t1 h1).1
    have e2 := (hmid t2 h2).1
    rw [hgg] at e1
    have := U2.nudge_by_inj e1 e2
    simpa using Nat.add_left_cancel this
  have hsub : scan.toFinset ⊆ s.pushes.toFinset := by
    intro b hbmem
    rw [List.mem_toFinset] at hbmem ⊢
    obtain ⟨⟨t, ht⟩, rfl⟩ := List.mem_iff_get.mp hbmem
    exact (hmid t ht).2.1
  calc scan.length = scan.toFinset.card := (List.toFinset_card_of_nodup hnd).symm
    _ ≤ s.pushes.toFinset.card := Finset.card_le_card hsub
    _ ≤ s.pushes.length := s.pushes.toFinset_card_le

/-- Completeness of the walk, generalised over the start index: if the
cells at indices `1, …, scan.length` are exactly the chain `scan` of
non-stop push cells and the next cell is free, the walk collects `scan`. -/
theorem youMoveWalk_complete_aux (s : Sokoban) (d : Direction) (scan : List U2)
    (hscan : ∀ t (ht : t < scan.length),
      s.you.nudge_by (1 + t) d = some (scan.get ⟨t, ht⟩) ∧
      scan.get ⟨t, ht⟩ ∉ s.stops ∧ scan.get ⟨t, ht⟩ ∈ s.pushes)
    (hq : ∃ q, s.you.nudge_by (1 + scan.length) d = some q ∧
      q ∉ s.stops ∧ q ∉ s.pushes) :
    ∀ fuel j acc, scan.length - j ≤ fuel → j ≤ scan.length →
      youMoveWalk s d (1 + j) acc = some (acc ++ scan.drop j) := by
  intro fuel
  induction fuel with
  | zero =>
    intro j acc hf hj
    have hj' : j = scan.length := by omega
    subst hj'
    obtain ⟨q, hq1, hq2, hq3⟩ := hq
    rw [youMoveWalk_eq, hq1]
    simp [hq2, hq3]
  | succ fuel ih =>
    intro j acc hf hj
    rcases Nat.lt_or_ge j scan.length with hlt | hge
    · have h1 := hscan j hlt
      rw [youMoveWalk_eq, h1.1]
      simp only [if_neg h1.2.1, if_pos h1.2.2]
      have hrec := ih (j + 1) (acc ++ [scan.get ⟨j, hlt⟩]) (by omega) (by omega)
      rw [show 1 + j + 1 = 1 + (j + 1) by omega, hrec]
      congr 1
      rw [List.append_assoc]
      congr 1
      rw [List.drop_eq_getElem_cons hlt]
      simp [List.get_eq_getElem]
    · have hj' : j = scan.length := by omega
      subst hj'
      obtain ⟨q, hq1, hq2, hq3⟩ := hq
      rw [youMoveWalk_eq, hq1]
      simp [hq2, hq3]

/-- Completeness of the walk from its start. -/
theorem youMoveWalk_complete (s : Sokoban) (d : Direction) (scan : List U2)
    (hscan : ∀ t (ht : t < scan.length),
      s.you.nudge_by (1 + t) d = some (scan.get ⟨t, ht⟩) ∧
      scan.get ⟨t, ht⟩ ∉ s.stops ∧ scan.get ⟨t, ht⟩ ∈ s.pushes)
    (hq : ∃ q, s.you.nudge_by (1 + scan.length) d = some q ∧
      q ∉ s.stops ∧ q ∉ s.pushes) :
    youMoveWalk s d 1 [] = some scan := by
  have h := youMoveWalk_complete_aux s d scan hscan hq scan.length 0 [] (by omega) (by omega)
  simpa using h

/-- The walk rejects when the chain of non-stop push cells is followed by
an overflowing cell or a stop, generalised over the start index. -/
theorem youMoveWalk_reject_aux (s : Sokoban) (d : Direction) (scan : List U2)
    (hscan : ∀ t (ht : t < scan.length),
      s.you.nudge_by (1 + t) d = some (scan.get ⟨t, ht⟩) ∧
      scan.get ⟨t, ht⟩ ∉ s.stops ∧ scan.get ⟨t, ht⟩ ∈ s.pushes)
    (hbad : s.you.nudge_by (1 + scan.length) d = none ∨
      ∃ w, s.you.nudge_by (1 + scan.length) d = some w ∧ w ∈ s.stops) :
    ∀ fuel j acc, scan.length - j ≤ fuel → j ≤ scan.length →
      youMoveWalk s d (1 + j) acc = none := by
  intro fuel
  induction fuel with
  | zero =>
    intro j acc hf hj
    have hj' : j = scan.length := by omega
    subst hj'
    rcases hbad with hnone | ⟨w, hw1, hw2⟩
    · rw [youMoveWalk_eq, hnone]
    · rw [youMoveWalk_eq, hw1]
      simp [hw2]
  | succ fuel ih =>
    intro j acc hf hj
    rcases Nat.lt_or_ge j scan.length with hlt | hge
    · have h1 := hscan j hlt
      rw [youMoveWalk_eq, h1.1]
      simp only [if_neg h1.2.1, if_pos h1.2.2]
      have hrec := ih (j + 1) (acc ++ [scan.get ⟨j, hlt⟩]) (by omega) (by omega)
      rw [show 1 + j + 1 = 1 + (j + 1) by omega, hrec]
    · have hj' : j = scan.length := by omega
      subst hj'
      rcases hbad with hnone | ⟨w, hw1, hw2⟩
      · rw [youMoveWalk_eq, hnone]
      · rw [youMoveWalk_eq, hw1]
        simp [hw2]

/-- The walk rejects from its start. -/
theorem youMoveWalk_reject (s : Sokoban) (d : Direction) (scan : List U2)
    (hscan : ∀ t (ht : t < scan.length),
      s.you.nudge_by (1 + t) d = some (scan.get ⟨t, ht⟩) ∧
      scan.get ⟨t, ht⟩ ∉ s.stops ∧ scan.get ⟨t, ht⟩ ∈ s.pushes)
    (hbad : s.you.nudge_by (1 + scan.length) d = none ∨
      ∃ w, s.you.nudge_by (1 + scan.length) d = some w ∧ w ∈ s.stops) :
    youMoveWalk s d 1 [] = none := by
  have h := youMoveWalk_reject_aux s d scan hscan hbad scan.length 0 [] (by omega) (by omega)
  simpa using h

/-! ### Claim theorems: board engine -/

/-- C1: for every board and direction `d`, if the outward walk from the
player along `d` passes over the contiguous block cells `scan` (at offsets
1..scan.length, none of them stops) and then reaches a free cell (nudge
defined, no wall, no block), then `you_move d` returns a board in which
the player is at `player.nudge_by 1 d`, every scanned block is replaced by
its own one-step nudge in `d`, every block not scanned is unchanged, and
the walls and targets are unchanged. -/
theorem claim_C1_chain_move (s : Sokoban) (d : Direction) (scan : List U2)
    (hscan : ∀ t (ht : t < scan.length),
      s.you.nudge_by (1 + t) d = some (scan.get ⟨t, ht⟩) ∧
      scan.get ⟨t, ht⟩ ∉ s.stops ∧ scan.get ⟨t, ht⟩ ∈ s.pushes)
    (hq : ∃ q, s.you.nudge_by (1 + scan.length) d = some q ∧
      q ∉ s.stops ∧ q ∉ s.pushes) :
    s.you.nudge_by 1 d = some ((s.you_move d).you)
    ∧ (s.you_move d).stops = s.stops
    ∧ (s.you_move d).targets = s.targets
    ∧ (∀ b ∈ scan, ∃ b', b.nudge d = some b')
    ∧ (s.you_move d).pushes =
        s.pushes.map fun b => if b ∈ scan then (b.nudge d).get! else b := by
  have hw := youMoveWalk_complete s d scan hscan hq
  have hyou := youMoveWalk_you_nudge_isSome s d scan hw
  obtain ⟨ny, hny⟩ := Option.isSome_iff_exists.mp hyou
  have hmove : s.you_move d =
      { you := (s.you.nudge d).get!
        stops := s.stops
        pushes := s.pushes.map fun p => if p ∈ scan then (p.nudge d).get! else p
        targets := s.targets } := by
    simp only [Sokoban.you_move, hw]
  refine ⟨?_, by rw [hmove], by rw [hmove], ?_, by rw [hmove]⟩
  · rw [hmove]
    show s.you.nudge_by 1 d = some ((s.you.nudge d).get!)
    rw [show s.you.nudge_by 1 d = s.you.nudge d from rfl, hny]
    rfl
  · intro b hb
    exact Option.isSome_iff_exists.mp (youMoveWalk_push_nudge_isSome s d scan hw b hb)

/-- C2: for every board and direction `d`, if the outward walk from the
player along `d` reaches, after the contiguous non-stop block cells
`scan`, a candidate that overflows or is a wall, then the move is rejected
and `you_move d` returns the input board unchanged (player, blocks, walls
and targets all identical).  The case `scan = []` is the claim's "cell
immediately adjacent to the player is a wall or absent". -/
theorem claim_C2_rejected_move (s : Sokoban) (d : Direction) (scan : List U2)
    (hscan : ∀ t (ht : t < scan.length),
      s.you.nudge_by (1 + t) d = some (scan.get ⟨t, ht⟩) ∧
      scan.get ⟨t, ht⟩ ∉ s.stops ∧ scan.get ⟨t, ht⟩ ∈ s.pushes)
    (hbad : s.you.nudge_by (1 + scan.length) d = none ∨
      ∃ w, s.you.nudge_by (1 + scan.length) d = some w ∧ w ∈ s.stops) :
    s.you_move d = s := by
  have hw := youMoveWalk_reject s d scan hscan hbad
  simp [Sokoban.you_move, hw]

/-- C3: `you_move` is total: the unbounded loop always reaches a decision
(rejection, or a free cell after collecting at most `pushes.length` block
cells, i.e. within one step more than the number of blocks), and when it
does not reject, the single-step nudges of the player and of every
remembered moving block are defined, so the `unwrap`s after the loop never
fail. -/
theorem claim_C3_total (s : Sokoban) (d : Direction) :
    youMoveWalk s d 1 [] = none ∨
    ∃ scan, youMoveWalk s d 1 [] = some scan ∧
      scan.length ≤ s.pushes.length ∧
      (s.you.nudge d).isSome = true ∧
      ∀ b ∈ scan, (b.nudge d).isSome = true := by
  cases hw : youMoveWalk s d 1 [] with
  | none => exact Or.inl rfl
  | some scan =>
    exact Or.inr ⟨scan, rfl, youMoveWalk_length_le s d scan hw,
      youMoveWalk_you_nudge_isSome s d scan hw,
      youMoveWalk_push_nudge_isSome s d scan hw⟩

/-- C10: every move (accepted or rejected) preserves the block count and
the insertion order: the i-th block of the output is either the i-th block
of the input unchanged, or that same block nudged one step in `d`. -/
theorem claim_C10_blocks_pointwise (s : Sokoban) (d : Direction) :
    (s.you_move d).pushes.length = s.pushes.length
    ∧ ∀ i : Nat, (s.you_move d).pushes.get? i = s.pushes.get? i
        ∨ ∃ b b', s.pushes.get? i = some b ∧ b.nudge d = some b' ∧
            (s.you_move d).pushes.get? i = some b' := by
  cases hw : youMoveWalk s d 1 [] with
  | none =>
    have hmv : s.you_move d = s := by simp [Sokoban.you_move, hw]
    rw [hmv]
    exact ⟨rfl, fun i => Or.inl rfl⟩
  | some scan =>
    have hmv : (s.you_move d).pushes =
        s.pushes.map fun p => if p ∈ scan then (p.nudge d).get! else p := by
      simp [Sokoban.you_move, hw]
    rw [hmv]
    refine ⟨by simp, fun i => ?_⟩
    cases hget : s.pushes.get? i with
    | none =>
      left
      rw [List.get?_map, hget]
      rfl
    | some b =>
      rw [List.get?_map, hget]
      by_cases hmem : b ∈ scan
      · right
        obtain ⟨b', hb'⟩ := Option.isSome_iff_exists.mp
          (youMoveWalk_push_nudge_isSome s d scan hw b hmem)
        exact ⟨b, b', rfl, hb', by simp [hmem, hb']⟩
      · left
        simp [hmem]

/-- C4: `triggered_targets` returns exactly the targets coinciding with a
block (as a sublist of `targets`, i.e. in the targets' insertion order; a
target with only the player on it does not qualify since membership needs
a block), and `all_targets_triggered` holds iff every target is returned. -/
theorem claim_C4_triggered_targets (s : Sokoban) :
    (∀ t, t ∈ s.triggered_targets ↔ t ∈ s.targets ∧ t ∈ s.pushes)
    ∧ s.triggered_targets.Sublist s.targets
    ∧ (s.all_targets_triggered = true ↔ ∀ t ∈ s.targets, t ∈ s.triggered_targets) := by
  refine ⟨fun t => ?_, List.filter_sublist _, ?_⟩
  · simp [Sokoban.triggered_targets, List.mem_filter]
  · simp only [Sokoban.all_targets_triggered, List.all_eq_true,
      Sokoban.triggered_targets, List.mem_filter, decide_eq_true_eq]
    exact ⟨fun h t ht => ⟨ht, h t ht⟩, fun h t ht => (h t ht).2⟩

/-- C9: nudging by `n` in a direction and then by `n` in the opposite
direction round-trips to the original point whenever neither leg
overflows. -/
theorem claim_C9_nudge_roundtrip (p q : U2) (d : Direction) (n : Nat)
    (h1 : p.nudge_by n d = some q)
    (h2 : (q.nudge_by n d.opposite).isSome = true) :
    q.nudge_by n d.opposite = some p := by
  cases p with
  | mk px py =>
    cases d
    case Up =>
      simp only [U2.nudge_by, Direction.opposite, checked_sub, checked_add] at h1 h2 ⊢
      split at h1 <;> simp_all
      subst h1
      exact ⟨rfl, by show py - n + n = py; omega⟩
    case Left =>
      simp only [U2.nudge_by, Direction.opposite, checked_sub, checked_add] at h1 h2 ⊢
      split at h1 <;> simp_all
      subst h1
      exact ⟨by show px - n + n = px; omega, rfl⟩
    case Down =>
      simp only [U2.nudge_by, Direction.opposite, checked_sub, checked_add] at h1 h2 ⊢
      split at h1 <;> simp_all
      subst h1
      exact ⟨rfl, by show py + n - n = py; omega⟩
    case Right =>
      simp only [U2.nudge_by, Direction.opposite, checked_sub, checked_add] at h1 h2 ⊢
      split at h1 <;> simp_all
      subst h1
      exact ⟨by show px + n - n = px; omega, rfl⟩

/-- A concrete board for exercising the chain-push move: player at (1,1),
one block at (2,1), the cell (3,1) free. -/
def c1Board : Sokoban :=
  { you := ⟨1, 1⟩, stops := [], pushes := [⟨2, 1⟩], targets := [] }

theorem claim_C1_chain_move_witness :
    c1Board.you.nudge_by 1 .Right = some ((c1Board.you_move .Right).you)
    ∧ (c1Board.you_move .Right).stops = c1Board.stops
    ∧ (c1Board.you_move .Right).targets = c1Board.targets
    ∧ (∀ b ∈ [(⟨2, 1⟩ : U2)], ∃ b', b.nudge .Right = some b')
    ∧ (c1Board.you_move .Right).pushes =
        c1Board.pushes.map fun b => if b ∈ [(⟨2, 1⟩ : U2)] then (b.nudge .Right).get! else b :=
  claim_C1_chain_move c1Board .Right [⟨2, 1⟩] (by decide) ⟨⟨3, 1⟩, by decide⟩

theorem claim_C2_rejected_move_witness :
    (Sokoban.mk ⟨0, 0⟩ [] [] []).you_move .Up = Sokoban.mk ⟨0, 0⟩ [] [] [] :=
  claim_C2_rejected_move (Sokoban.mk ⟨0, 0⟩ [] [] []) .Up [] (by decide) (Or.inl (by decide))

theorem claim_C9_nudge_roundtrip_witness :
    (U2.mk 5 3).nudge_by 2 (Direction.opposite .Up) = some (U2.mk 5 5) :=
  claim_C9_nudge_roundtrip (U2.mk 5 5) (U2.mk 5 3) .Up 2 (by decide) (by decide)

/-! ### Claim theorems: poker -/

/-- C5: the Ace is handled exactly as specified by straight detection:
the one-suited wheel A-2-3-4-5 is a StraightFlush(Five), the one-suited
T-J-Q-K-A is a RoyalFlush, and the mixed-suit K-A-2-3-4 is not a straight
but the high card hand [Ace, King, Four, Three, Two]. -/
theorem claim_C5_ace_straights :
    (Hand.new [⟨.Ace, .Diamond⟩, ⟨.Two, .Diamond⟩, ⟨.Three, .Diamond⟩, ⟨.Four, .Diamond⟩,
        ⟨.Five, .Diamond⟩]).bind Hand.kind = some (HandKind.StraightFlush Rank.Five)
    ∧ (Hand.new [⟨.Ten, .Spade⟩, ⟨.Jack, .Spade⟩, ⟨.Queen, .Spade⟩, ⟨.King, .Spade⟩,
        ⟨.Ace, .Spade⟩]).bind Hand.kind = some HandKind.RoyalFlush
    ∧ (Hand.new [⟨.King, .Heart⟩, ⟨.Ace, .Diamond⟩, ⟨.Two, .Spade⟩, ⟨.Three, .Club⟩,
        ⟨.Four, .Heart⟩]).bind Hand.kind =
      some (HandKind.HighCard [Rank.Ace, Rank.King, Rank.Four, Rank.Three, Rank.Two]) := by
  decide

/-- C8: `Hand::new` fails exactly on fewer than 5 cards; on 5 or more it
succeeds and holds exactly the input cards (a permutation of them) sorted
in descending rank order. -/
theorem claim_C8_hand_new (cards : List Card) :
    (cards.length < 5 → Hand.new cards = none)
    ∧ (5 ≤ cards.length → ∃ h, Hand.new cards = some h ∧
        h.cards.Perm cards ∧ h.cards.Sorted cardDesc) := by
  constructor
  · intro hlt
    rw [Hand.new, if_neg (by omega)]
  · intro hge
    refine ⟨⟨List.insertionSort cardDesc cards⟩, ?_, ?_, ?_⟩
    · rw [Hand.new, if_pos hge]
    · exact List.perm_insertionSort cardDesc cards
    · exact List.sorted_insertionSort cardDesc cards

theorem claim_C8_hand_new_witness :
    Hand.new [⟨.Ace, .Spade⟩, ⟨.Two, .Heart⟩, ⟨.King, .Club⟩, ⟨.Ten, .Diamond⟩] = none
    ∧ ∃ h, Hand.new [⟨.Ace, .Spade⟩, ⟨.Two, .Heart⟩, ⟨.King, .Club⟩, ⟨.Ten, .Diamond⟩,
        ⟨.Three, .Heart⟩] = some h ∧
        h.cards.Perm [⟨.Ace, .Spade⟩, ⟨.Two, .Heart⟩, ⟨.King, .Club⟩, ⟨.Ten, .Diamond⟩,
          ⟨.Three, .Heart⟩] ∧ h.cards.Sorted cardDesc :=
  ⟨(claim_C8_hand_new _).1 (by decide), (claim_C8_hand_new _).2 (by decide)⟩

/-! ### Counting lemmas for the 5-card totality of the evaluator -/

theorem sum_map_add_distrib {α : Type} (l : List α) (f g : α → Nat) :
    (l.map fun x => f x + g x).sum = (l.map f).sum + (l.map g).sum := by
  induction l with
  | nil => simp
  | cons a t ih => simp [ih]; omega

theorem sum_map_const_eq {α : Type} (l : List α) (f : α → Nat) (c : Nat)
    (h : ∀ x ∈ l, f x = c) : (l.map f).sum = c * l.length := by
  induction l with
  | nil => simp
  | cons a t ih =>
    simp only [List.map_cons, List.sum_cons, List.length_cons]
    rw [h a (List.mem_cons_self a t), ih fun x hx => h x (List.mem_cons_of_mem a hx)]
    ring

theorem length_le_sum_map {α : Type} (l : List α) (f : α → Nat)
    (h : ∀ x ∈ l, 1 ≤ f x) : l.length ≤ (l.map f).sum := by
  induction l with
  | nil => simp
  | cons a t ih =>
    simp only [List.map_cons, List.sum_cons, List.length_cons]
    have := h a (List.mem_cons_self a t)
    have := ih fun x hx => h x (List.mem_cons_of_mem a hx)
    omega

theorem sum_map_ite_beq_eq_one {α : Type} [DecidableEq α] {l : List α} (hnd : l.Nodup)
    {a : α} (ha : a ∈ l) :
    (l.map fun r => if a == r then 1 else 0).sum = 1 := by
  induction l with
  | nil => cases ha
  | cons b t ih =>
    obtain ⟨hbt, hndt⟩ := List.nodup_cons.mp hnd
    rcases List.mem_cons.mp ha with rfl | ha'
    · simp only [List.map_cons, List.sum_cons, beq_self_eq_true, if_pos]
      have hz : (t.map fun r => if a == r then 1 else 0).sum = 0 * t.length :=
        sum_map_const_eq t _ 0 fun r hr => by
          have hne : a ≠ r := fun e => hbt (e ▸ hr)
          simp [hne]
      omega
    · have hb : ¬(a == b) = true := by
        simp only [beq_iff_eq]
        exact fun e => hbt (by rw [← e]; exact ha')
      simp only [List.map_cons, List.sum_cons, if_neg hb]
      rw [ih hndt ha']

theorem sum_dedup_count {α : Type} [DecidableEq α] (l : List α) :
    (l.dedup.map fun r => l.count r).sum = l.length := by
  induction l with
  | nil => simp
  | cons a t ih =>
    by_cases h : a ∈ t
    · rw [List.dedup_cons_of_mem h]
      have hcongr : t.dedup.map (fun r => (a :: t).count r)
          = t.dedup.map fun r => t.count r + if a == r then 1 else 0 :=
        List.map_congr_left fun r _ => List.count_cons r a t
      rw [hcongr, sum_map_add_distrib, ih,
        sum_map_ite_beq_eq_one (List.nodup_dedup t) (List.mem_dedup.mpr h)]
      simp
    · rw [List.dedup_cons_of_not_mem h]
      simp only [List.map_cons, List.sum_cons]
      have hcount : (a :: t).count a = t.count a + 1 := by
        rw [List.count_cons]
        simp
      have hzero : t.count a = 0 := List.count_eq_zero.mpr h
      have hcongr : t.dedup.map (fun r => (a :: t).count r)
          = t.dedup.map fun r => t.count r := by
        refine List.map_congr_left fun r hr => ?_
        rw [List.count_cons]
        have hne : ¬(a == r) = true := by
          simp only [beq_iff_eq]
          exact fun e => h (by rw [e]; exact List.mem_dedup.mp hr)
        simp [hne]
      rw [hcount, hzero, hcongr, ih]
      simp [Nat.add_comm]

/-- A rank appearing in the dedup of the rank list has positive count. -/
theorem count_pos_of_mem_dedup {α : Type} [DecidableEq α] {l : List α} {r : α}
    (hr : r ∈ l.dedup) : 1 ≤ l.count r :=
  List.count_pos_iff.mpr (List.mem_dedup.mp hr)

/-- The function `set_hand` never panics on a 5-card hand: the `assert_eq!`s and the
`try_into` conversion on the `Pair` path always succeed, because the rank
multiplicities of 5 cards with no quad and no triple force exactly one
kicker next to two pairs and exactly three kickers next to one pair. -/
theorem set_hand_isSome (L : List Card) (hlen : L.length = 5) :
    ∃ o, set_hand L = some o := by
  simp only [set_hand]
  cases hfind : (L.map Card.rank).dedup.find? (fun r => decide (countRank L r = 4)) with
  | some r =>
    exact ⟨_, rfl⟩
  | none =>
    cases hthree :
        ((L.map Card.rank).dedup.filter fun r => decide (countRank L r = 3)).head? with
    | some t =>
      exact ⟨_, rfl⟩
    | none =>
      have hno3 : ∀ r ∈ (L.map Card.rank).dedup, ¬ countRank L r = 3 := by
        intro r hr hc
        have hnil := List.head?_eq_none_iff.mp hthree
        have : r ∈ ((L.map Card.rank).dedup.filter fun r => decide (countRank L r = 3)) :=
          List.mem_filter.mpr ⟨hr, by simp [hc]⟩
        rw [hnil] at this
        cases this
      have hsum : ((L.map Card.rank).dedup.map fun r => countRank L r).sum = 5 := by
        have := sum_dedup_count (L.map Card.rank)
        simpa [countRank, hlen] using this
      have hsplit :
          (((L.map Card.rank).dedup.filter fun r => decide (countRank L r = 2)).map
              fun r => countRank L r).sum
          + (((L.map Card.rank).dedup.filter fun r => !decide (countRank L r = 2)).map
              fun r => countRank L r).sum = 5 := by
        have hperm := (List.filter_append_perm
          (fun r => decide (countRank L r = 2)) (L.map Card.rank).dedup).map
          fun r => countRank L r
        rw [List.map_append] at hperm
        have := hperm.sum_eq
        rw [List.sum_append] at this
        rw [this, hsum]
      have hhighs_eq :
          ((L.map Card.rank).dedup.filter fun r =>
              decide (countRank L r ≠ 3 ∧ countRank L r ≠ 2))
          = (L.map Card.rank).dedup.filter fun r => !decide (countRank L r = 2) := by
        refine List.filter_congr fun r hr => ?_
        have h3 := hno3 r hr
        by_cases h2 : countRank L r = 2 <;> simp [h2, h3]
      have hpair_count : ∀ r ∈ ((L.map Card.rank).dedup.filter
          fun r => decide (countRank L r = 2)), countRank L r = 2 := by
        intro r hr
        have := (List.mem_filter.mp hr).2
        simpa using this
      have hhigh_facts : ∀ r ∈ ((L.map Card.rank).dedup.filter
          fun r => !decide (countRank L r = 2)),
          1 ≤ countRank L r ∧ countRank L r ≠ 2 ∧ countRank L r ≠ 3 := by
        intro r hr
        obtain ⟨hrd, hrf⟩ := List.mem_filter.mp hr
        refine ⟨count_pos_of_mem_dedup hrd, by simpa using hrf, hno3 r hrd⟩
      cases hp : (L.map Card.rank).dedup.filter fun r => decide (countRank L r = 2) with
      | nil =>
        exact ⟨_, rfl⟩
      | cons p1 ps =>
        cases ps with
        | nil =>
          -- exactly one pair: the three kickers
          rw [hp] at hsplit hpair_count
          have hpsum : ([p1].map fun r => countRank L r).sum = 2 * 1 :=
            sum_map_const_eq _ _ 2 hpair_count
          simp only [List.length_singleton] at hpsum
          have hS : (((L.map Card.rank).dedup.filter fun r =>
              !decide (countRank L r = 2)).map fun r => countRank L r).sum = 3 := by
            omega
          have hall1 : ∀ r ∈ ((L.map Card.rank).dedup.filter
              fun r => !decide (countRank L r = 2)), countRank L r = 1 := by
            intro r hr
            obtain ⟨h1, h2, h3⟩ := hhigh_facts r hr
            have hle : countRank L r ≤ 3 := by
              have hmem : countRank L r ∈ (((L.map Card.rank).dedup.filter fun r =>
                  !decide (countRank L r = 2)).map fun r => countRank L r) :=
                List.mem_map_of_mem _ hr
              have := List.single_le_sum (fun x _ => Nat.zero_le x) _ hmem
              omega
            omega
          have hlen3 : ((L.map Card.rank).dedup.filter
              fun r => !decide (countRank L r = 2)).length = 3 := by
            have h1 : (((L.map Card.rank).dedup.filter fun r =>
                !decide (countRank L r = 2)).map fun r => countRank L r).sum
                = 1 * ((L.map Card.rank).dedup.filter
                    fun r => !decide (countRank L r = 2)).length :=
              sum_map_const_eq _ _ 1 hall1
            omega
          rw [hhighs_eq]
          obtain ⟨a, b, c, habc⟩ := List.length_eq_three.mp hlen3
          rw [habc]
          exact ⟨_, rfl⟩
        | cons p2 pps =>
          cases pps with
          | nil =>
            -- exactly two pairs: one kicker
            rw [hp] at hsplit hpair_count
            have hpsum : ([p1, p2].map fun r => countRank L r).sum = 2 * 2 :=
              sum_map_const_eq _ _ 2 hpair_count
            simp only [List.length_cons, List.length_singleton] at hpsum
            have hS : (((L.map Card.rank).dedup.filter fun r =>
                !decide (countRank L r = 2)).map fun r => countRank L r).sum = 1 := by
              omega
            have hge : ((L.map Card.rank).dedup.filter
                fun r => !decide (countRank L r = 2)).length ≤ 1 := by
              have h1 : ((L.map Card.rank).dedup.filter
                  fun r => !decide (countRank L r = 2)).length
                  ≤ (((L.map Card.rank).dedup.filter fun r =>
                      !decide (countRank L r = 2)).map fun r => countRank L r).sum :=
                length_le_sum_map _ _ fun r hr => (hhigh_facts r hr).1
              omega
            have hne0 : ((L.map Card.rank).dedup.filter
                fun r => !decide (countRank L r = 2)).length ≠ 0 := by
              intro h0
              have hnil := List.length_eq_zero.mp h0
              rw [hnil] at hS
              simp at hS
            have hlen1 : ((L.map Card.rank).dedup.filter
                fun r => !decide (countRank L r = 2)).length = 1 := by omega
            rw [hhighs_eq]
            obtain ⟨hc, hhc⟩ := List.length_eq_one.mp hlen1
            rw [hhc]
            exact ⟨_, rfl⟩
          | cons p3 ppps =>
            -- three or more pairs is impossible among 5 cards
            exfalso
            rw [hp] at hsplit hpair_count
            have hpsum : ((p1 :: p2 :: p3 :: ppps).map fun r => countRank L r).sum
                = 2 * (p1 :: p2 :: p3 :: ppps).length :=
              sum_map_const_eq _ _ 2 hpair_count
            simp only [List.length_cons] at hpsum
            omega

/-- The function `kind` never panics on a hand of exactly 5 cards. -/
theorem kind_isSome_of_length5 (L : List Card) (hlen : L.length = 5) :
    ∃ k, Hand.kind ⟨L⟩ = some k := by
  simp only [Hand.kind]
  by_cases hfs : (is_flush L && (straight_high_card L).isSome) = true
  · rw [if_pos hfs]
    by_cases hace : straight_high_card L = some Rank.Ace
    · rw [if_pos hace]
      exact ⟨_, rfl⟩
    · rw [if_neg hace]
      have hst : (straight_high_card L).isSome = true := by
        have := hfs
        simp only [Bool.and_eq_true] at this
        exact this.2
      obtain ⟨r, hr⟩ := Option.isSome_iff_exists.mp hst
      rw [hr]
      exact ⟨_, rfl⟩
  · rw [if_neg hfs]
    by_cases hf : is_flush L = true
    · rw [if_pos hf, if_pos hlen]
      exact ⟨_, rfl⟩
    · rw [if_neg hf]
      by_cases hst : (straight_high_card L).isSome = true
      · rw [if_pos hst]
        obtain ⟨r, hr⟩ := Option.isSome_iff_exists.mp hst
        rw [hr]
        exact ⟨_, rfl⟩
      · rw [if_neg hst]
        obtain ⟨o, ho⟩ := set_hand_isSome L hlen
        rw [ho]
        cases o with
        | some k => exact ⟨k, rfl⟩
        | none =>
          rw [if_pos hlen]
          exact ⟨_, rfl⟩

/-- C7 (amended): for every list of exactly 5 cards, the constructed hand
classifies without any runtime failure into exactly one `HandKind`. -/
theorem claim_C7_kind_total_on_five (cards : List Card) (h5 : cards.length = 5) :
    ∃ k, (Hand.new cards).bind Hand.kind = some k := by
  have hnew : Hand.new cards = some ⟨List.insertionSort cardDesc cards⟩ := by
    rw [Hand.new, if_pos (by omega)]
  rw [hnew]
  show ∃ k, Hand.kind ⟨List.insertionSort cardDesc cards⟩ = some k
  exact kind_isSome_of_length5 _ (by rw [List.length_insertionSort]; exact h5)

/-- C7 (counterexample): a hand of 6 cards is accepted by `Hand::new`
(6 ≥ 5), yet `kind()` fails on it — the `try_into::<[Rank; 5]>().unwrap()`
on the `HighCard` path panics — refuting the claim that `kind()` completes
without runtime failure for every hand of 5 or more cards. -/
theorem claim_C7_counterexample :
    (Hand.new [⟨.Two, .Heart⟩, ⟨.Four, .Diamond⟩, ⟨.Six, .Spade⟩, ⟨.Eight, .Club⟩,
        ⟨.Ten, .Heart⟩, ⟨.Queen, .Diamond⟩]).isSome = true
    ∧ (Hand.new [⟨.Two, .Heart⟩, ⟨.Four, .Diamond⟩, ⟨.Six, .Spade⟩, ⟨.Eight, .Club⟩,
        ⟨.Ten, .Heart⟩, ⟨.Queen, .Diamond⟩]).bind Hand.kind = none := by
  decide

theorem claim_C7_kind_total_on_five_witness :
    ∃ k, (Hand.new [⟨.Two, .Heart⟩, ⟨.Four, .Diamond⟩, ⟨.Six, .Spade⟩, ⟨.Eight, .Club⟩,
        ⟨.Ten, .Heart⟩]).bind Hand.kind = some k :=
  claim_C7_kind_total_on_five _ (by decide)

/-! ### Ordering lemmas for hand comparison -/

theorem orderingThen_eq_eq {o p : Ordering} : o.then p = .eq ↔ o = .eq ∧ p = .eq := by
  cases o <;> simp [Ordering.then]

theorem rank_cmp_eq_eq_iff : ∀ a b : Rank, Rank.cmp a b = .eq ↔ a = b := by
  decide

theorem cmpRankList_eq_eq_iff : ∀ x y : List Rank, cmpRankList x y = .eq ↔ x = y := by
  intro x
  induction x with
  | nil =>
    intro y
    cases y <;> simp [cmpRankList]
  | cons a xs ih =>
    intro y
    cases y with
    | nil => simp [cmpRankList]
    | cons b ys =>
      simp [cmpRankList, orderingThen_eq_eq, rank_cmp_eq_eq_iff, ih]

theorem handKind_cmp_eq_eq_iff (a b : HandKind) : HandKind.cmp a b = .eq ↔ a = b := by
  cases a <;> cases b <;>
    simp [HandKind.cmp, HandKind.tag, HandKind.payloadCmp, orderingThen_eq_eq,
      rank_cmp_eq_eq_iff, cmpRankList_eq_eq_iff, Nat.compare_eq_eq, and_assoc]

theorem handKind_cmp_lt_of_tag_lt {a b : HandKind} (h : a.tag < b.tag) :
    HandKind.cmp a b = .lt := by
  rw [HandKind.cmp, Nat.compare_eq_lt.mpr h]
  rfl

theorem handKind_cmp_gt_of_tag_gt {a b : HandKind} (h : b.tag < a.tag) :
    HandKind.cmp a b = .gt := by
  rw [HandKind.cmp, Nat.compare_eq_gt.mpr h]
  rfl

theorem handKind_cmp_of_tag_eq {a b : HandKind} (h : a.tag = b.tag) :
    HandKind.cmp a b = a.payloadCmp b := by
  rw [HandKind.cmp, Nat.compare_eq_eq.mpr h]
  rfl

/-- C6: hand equality and ordering are determined entirely by the hands'
`HandKind` values: hands compare equal iff their kinds are equal (whatever
their cards); across categories the one whose variant is later in the
declaration order (HighCard < Pair < TwoPair < ThreeOfAKind < Straight <
Flush < FullHouse < FourOfAKind < StraightFlush < RoyalFlush, i.e. larger
`tag`) compares strictly greater; within a category the order is the
variant's payload comparison. -/
theorem claim_C6_hand_ordering (h1 h2 : Hand) (k1 k2 : HandKind)
    (hk1 : h1.kind = some k1) (hk2 : h2.kind = some k2) :
    (h1.eqv h2 = some true ↔ k1 = k2)
    ∧ (h1.pcmp h2 = some Ordering.eq ↔ k1 = k2)
    ∧ (k1.tag < k2.tag → h1.pcmp h2 = some Ordering.lt)
    ∧ (k2.tag < k1.tag → h1.pcmp h2 = some Ordering.gt)
    ∧ (k1.tag = k2.tag → h1.pcmp h2 = some (k1.payloadCmp k2)) := by
  have heqv : h1.eqv h2 = some (decide (k1 = k2)) := by
    rw [Hand.eqv, hk1, hk2]
  have hpc : h1.pcmp h2 = some (HandKind.cmp k1 k2) := by
    rw [Hand.pcmp, hk1, hk2]
  refine ⟨?_, ?_, ?_, ?_, ?_⟩
  · rw [heqv]
    simp
  · rw [hpc]
    simp [handKind_cmp_eq_eq_iff]
  · intro hlt
    rw [hpc, handKind_cmp_lt_of_tag_lt hlt]
  · intro hgt
    rw [hpc, handKind_cmp_gt_of_tag_gt hgt]
  · intro heq
    rw [hpc, handKind_cmp_of_tag_eq heq]

/-- A concrete high-card hand, already in sorted order. -/
def c6HandA : Hand :=
  ⟨[⟨.King, .Diamond⟩, ⟨.Queen, .Diamond⟩, ⟨.Seven, .Spade⟩, ⟨.Four, .Spade⟩, ⟨.Three, .Heart⟩]⟩

/-- A concrete royal flush, already in sorted order. -/
def c6HandB : Hand :=
  ⟨[⟨.Ace, .Spade⟩, ⟨.King, .Spade⟩, ⟨.Queen, .Spade⟩, ⟨.Jack, .Spade⟩, ⟨.Ten, .Spade⟩]⟩

theorem claim_C6_hand_ordering_witness :
    (c6HandA.eqv c6HandB = some true ↔
      HandKind.HighCard [.King, .Queen, .Seven, .Four, .Three] = HandKind.RoyalFlush)
    ∧ (c6HandA.pcmp c6HandB = some Ordering.eq ↔
      HandKind.HighCard [.King, .Queen, .Seven, .Four, .Three] = HandKind.RoyalFlush)
    ∧ ((HandKind.HighCard [.King, .Queen, .Seven, .Four, .Three]).tag < HandKind.RoyalFlush.tag →
        c6HandA.pcmp c6HandB = some Ordering.lt)
    ∧ (HandKind.RoyalFlush.tag < (HandKind.HighCard [.King, .Queen, .Seven, .Four, .Three]).tag →
        c6HandA.pcmp c6HandB = some Ordering.gt)
    ∧ ((HandKind.HighCard [.King, .Queen, .Seven, .Four, .Three]).tag = HandKind.RoyalFlush.tag →
        c6HandA.pcmp c6HandB =
          some ((HandKind.HighCard [.King, .Queen, .Seven, .Four, .Three]).payloadCmp
            HandKind.RoyalFlush)) :=
  claim_C6_hand_ordering c6HandA c6HandB
    (HandKind.HighCard [.King, .Queen, .Seven, .Four, .Three]) HandKind.RoyalFlush
    (by decide) (by decide)
